import Mathlib

set_option maxHeartbeats 1000000

/-! Formal model of the selectag CLI (wreulicke/selectag).

The Go code modelled here is cmd/root.go (tag-module collection, current
version resolution, next-version proposal, tag construction, version
validation) and the verify subcommand (update counting, errgroup
aggregation, report ranking).  External collaborators (git, the
hashicorp/go-version library, Go's slices.SortFunc) are modelled
explicitly; each definition's doc comment names the code it translates.
The Go identifier `prefix` is rendered `pfx` throughout (`prefix` is a
reserved word in Lean). -/

/-- The characters Go's strings.TrimSpace removes for ASCII input (git tag
names never contain the further Unicode spaces). -/
def isSpaceGo (c : Char) : Bool :=
  c = ' ' || c = '\t' || c = '\n' || c = '\x0b' || c = '\x0c' || c = '\r'

/-- Go strings.TrimSpace on the character list of a string. -/
def trimChars (l : List Char) : List Char :=
  ((l.dropWhile isSpaceGo).reverse.dropWhile isSpaceGo).reverse

/-- Go strings.TrimSpace. -/
def trimGo (s : String) : String := ⟨trimChars s.data⟩

/-- Go strings.Split with a one-character separator: splits at every
occurrence, keeping empty pieces; the empty string yields one empty
piece (Go's strings.Split never returns an empty slice). -/
def splitOnChar (sep : Char) : List Char → List (List Char)
  | [] => [[]]
  | c :: cs =>
    match splitOnChar sep cs with
    | [] => [[]]
    | h :: t => if c = sep then [] :: h :: t else (c :: h) :: t

/-- Go strings.HasPrefix. -/
def hasPrefixGo (s p : String) : Bool := p.data.isPrefixOf s.data

/-- Go strings.TrimPrefix: drop the leading marker when present, otherwise
return the string unchanged. -/
def trimPrefixGo (s p : String) : String :=
  if p.data.isPrefixOf s.data then ⟨s.data.drop p.data.length⟩ else s

/-- Decimal digits to a natural number. -/
def digitsToNat (l : List Char) : Nat :=
  l.foldl (fun a c => a * 10 + (c.toNat - 48)) 0

/-- Go strconv.ParseInt base 10 (optional sign, digits); int64 overflow is
not modelled (prerelease parts of twenty digits do not occur). -/
def parseIntGo (s : String) : Option Int :=
  match s.data with
  | [] => none
  | '-' :: ds =>
    if ds ≠ [] ∧ ds.all Char.isDigit then some (-(digitsToNat ds : Int)) else none
  | '+' :: ds =>
    if ds ≠ [] ∧ ds.all Char.isDigit then some ((digitsToNat ds : Int)) else none
  | ds => if ds.all Char.isDigit then some ((digitsToNat ds : Int)) else none

/-- A maximal-munch parse of part('.'part)* where a part is one or more
characters satisfying valid, exactly the anchored go-version regex pieces
[0-9]+(\.[0-9]+)* and [0-9A-Za-z\-~]+(\.[0-9A-Za-z\-~]+)*.  Returns the
parts and the unconsumed rest.  Fuel-driven to stay structurally
recursive; callers pass the input length plus one, which is always
sufficient because every recursive step consumes at least two characters. -/
def dotParts (valid : Char → Bool) : Nat → List Char → Option (List (List Char) × List Char)
  | _, [] => none
  | fuel, c :: cs =>
    if valid c then
      let part := c :: cs.takeWhile valid
      let rest := cs.dropWhile valid
      match fuel, rest with
      | f + 1, '.' :: c2 :: rest2 =>
        if valid c2 then
          match dotParts valid f (c2 :: rest2) with
          | some (ps, r) => some (part :: ps, r)
          | none => none
        else some ([part], rest)
      | _, _ => some ([part], rest)
    else none

/-- The character class [0-9A-Za-z-~] of go-version prerelease and
metadata labels. -/
def isPreChar (c : Char) : Bool :=
  c.isDigit || c.isUpper || c.isLower || c = '-' || c = '~'

/-- A parsed hashicorp/go-version value: the numeric segments (padded with
zeros to at least three) and the dot-separated prerelease parts ([] when
there is no prerelease).  Build metadata is validated during parsing and
then discarded; it never influences comparison. -/
structure GoVersion where
  segments : List Nat
  pre : List String
deriving DecidableEq, Repr

/-- hashicorp/go-version version.NewSemver: an optional leading v, one or
more numeric dot-separated segments (padded with zeros to three), an
optional -prerelease, an optional +metadata, anchored at both ends. -/
def newSemver (s : String) : Option GoVersion :=
  let l0 := s.data
  let l := match l0 with
    | 'v' :: rest => rest
    | _ => l0
  match dotParts Char.isDigit (l.length + 1) l with
  | none => none
  | some (segStrs, rest) =>
    let segs0 := segStrs.map digitsToNat
    let segs := segs0 ++ List.replicate (3 - segs0.length) 0
    let checkMeta : List Char → Bool := fun r =>
      match r with
      | [] => true
      | '+' :: r2 =>
        match dotParts isPreChar (r2.length + 1) r2 with
        | some (_, []) => true
        | _ => false
      | _ => false
    match rest with
    | '-' :: r2 =>
      match dotParts isPreChar (r2.length + 1) r2 with
      | some (parts, r3) =>
        if checkMeta r3 then some ⟨segs, parts.map (fun p => (⟨p⟩ : String))⟩ else none
      | none => none
    | r => if checkMeta r then some ⟨segs, []⟩ else none

/-- The jagged segment loop of go-version Version.Compare: compare
position by position; when one list is exhausted the other decides unless
its remainder is all zeros. -/
def cmpSegs : List Nat → List Nat → Int
  | [], [] => 0
  | [], b :: bs => if (b :: bs).all (fun x => x = 0) then 0 else -1
  | a :: as, [] => if (a :: as).all (fun x => x = 0) then 0 else 1
  | a :: as, b :: bs => if a = b then cmpSegs as bs else if a < b then -1 else 1

/-- go-version comparePart: equal strings tie; an empty (padded) part is
below a numeric part and above an alphanumeric one; numeric parts order
below alphanumeric parts; otherwise numeric or Go string comparison. -/
def comparePart (a b : String) : Int :=
  if a = b then 0
  else if a = "" then (if (parseIntGo b).isSome then -1 else 1)
  else if b = "" then (if (parseIntGo a).isSome then 1 else -1)
  else if (parseIntGo a).isSome ∧ ¬(parseIntGo b).isSome then -1
  else if ¬(parseIntGo a).isSome ∧ (parseIntGo b).isSome then 1
  else if ¬(parseIntGo a).isSome ∧ ¬(parseIntGo b).isSome then (if b < a then 1 else -1)
  else (if (parseIntGo b).getD 0 < (parseIntGo a).getD 0 then 1 else -1)

/-- The first part-level difference decides (the loop to biggestLen in
go-version comparePrereleases, on lists already padded to equal length). -/
def cmpPreParts : List (String × String) → Int
  | [] => 0
  | (a, b) :: rest => if comparePart a b = 0 then cmpPreParts rest else comparePart a b

/-- Pad a prerelease part list with empty strings, as the biggestLen loop
of go-version comparePrereleases does implicitly. -/
def padParts (n : Nat) (l : List String) : List String :=
  l ++ List.replicate (n - l.length) ""

/-- go-version comparePrereleases. -/
def comparePrereleases (a b : List String) : Int :=
  if a = b then 0
  else
    cmpPreParts ((padParts (max a.length b.length) a).zip (padParts (max a.length b.length) b))

/-- go-version Version.Compare: equal values tie; equal segments fall
through to prerelease precedence (a prerelease is below the bare release);
otherwise the segments decide. -/
def compareVersion (v w : GoVersion) : Int :=
  if v = w then 0
  else if v.segments = w.segments then
    match v.pre, w.pre with
    | [], [] => 0
    | [], _ :: _ => 1
    | _ :: _, [] => -1
    | a :: as, b :: bs => comparePrereleases (a :: as) (b :: bs)
  else cmpSegs v.segments w.segments

/-- go-version Version.GreaterThan. -/
def versionGT (v w : GoVersion) : Bool := 0 < compareVersion v w

/-- One step of the insertion sort that Go's slices.SortFunc runs (pdqsort
falls back to plain insertion sort for slices of at most twelve elements,
and for a valid strict weak order every length yields the same sorted
sequence): the new element moves left past every element e with
cmp x e < 0 and stops at the first failure.  The accumulated sorted run is
kept reversed, so insertion scans from its head. -/
def insertRev {α : Type _} (cmp : α → α → Int) (x : α) : List α → List α
  | [] => [x]
  | y :: ys => if cmp x y < 0 then y :: insertRev cmp x ys else x :: y :: ys

/-- Go slices.SortFunc (also slices.SortedFunc, which collects and then
calls SortFunc). -/
def sortFuncGo {α : Type _} (cmp : α → α → Int) (l : List α) : List α :=
  (l.foldl (fun acc x => insertRev cmp x acc) []).reverse

/-- The insertion loop of sortFuncGo from an arbitrary accumulated run. -/
def foldlIns {α : Type _} (cmp : α → α → Int) (acc l : List α) : List α :=
  l.foldl (fun a x => insertRev cmp x a) acc

/-- cmd/root.go getGitTagFromVersion. -/
def getGitTagFromVersion (pfx ver : String) : String :=
  if pfx = "" then "v" ++ ver else pfx ++ "/v" ++ ver

/-- The match marker built at the top of cmd/root.go getCurrentVersion:
"v" for the root (empty) module and "<module>/v" otherwise. -/
def matchMarker (pfx : String) : String :=
  if pfx = "" then "v" else pfx ++ "/v"

/-- The comparator handed to slices.SortFunc inside cmd/root.go
getCurrentVersion: parse both tags after stripping the marker; if either
parse fails the pair compares equal; otherwise the greater version sorts
first. -/
def tagSortCmp (marker : String) (i j : String) : Int :=
  match newSemver (trimPrefixGo i marker), newSemver (trimPrefixGo j marker) with
  | some vi, some vj => if versionGT vi vj then -1 else 1
  | _, _ => 0

/-- cmd/root.go getCurrentVersion after the git query: the length guard,
the sort, and the marker-stripped, whitespace-trimmed first tag. -/
def getCurrentVersionFromTags (pfx : String) (tags : List String) : Except String String :=
  if tags.length = 0 then Except.error ("no tags found with prefix " ++ matchMarker pfx)
  else
    match sortFuncGo (tagSortCmp (matchMarker pfx)) tags with
    | [] => Except.error ("no tags found with prefix " ++ matchMarker pfx)
    | t :: _ => Except.ok (trimPrefixGo (trimGo t) (matchMarker pfx))

/-- cmd/root.go getCurrentVersion; the git tag --list output is none when
the command fails and is otherwise split exactly as
strings.Split(strings.TrimSpace(output), "\n"). -/
def getCurrentVersion (pfx : String) (gitOutput : Option String) : Except String String :=
  match gitOutput with
  | none => Except.error "failed to list git tags"
  | some out =>
    getCurrentVersionFromTags pfx
      ((splitOnChar '\n' (trimChars out.data)).map (fun l => (⟨l⟩ : String)))

/-- The rendering fmt.Sprintf of a %d.%d.%d triple. -/
def fmtTriple (a b c : Nat) : String :=
  toString a ++ "." ++ toString b ++ "." ++ toString c

/-- cmd/root.go generateNewVersionOptions, once the resolved current
version has been parsed: the ordered (label, value) menu entries.  The
patch, minor, major bumps always appear in that order, and when a
prerelease is present the stripped M.N.P candidate is prepended. -/
def generateNewVersionOptions (v : GoVersion) : List (String × String) :=
  let s0 := v.segments.getD 0 0
  let s1 := v.segments.getD 1 0
  let s2 := v.segments.getD 2 0
  let major := fmtTriple (s0 + 1) 0 0
  let minor := fmtTriple s0 (s1 + 1) 0
  let patch := fmtTriple s0 s1 (s2 + 1)
  let suggestions :=
    [("patch - " ++ patch, patch), ("minor - " ++ minor, minor), ("major - " ++ major, major)]
  if v.pre.length > 0 then
    let cleanVersion := fmtTriple s0 s1 s2
    ("remove prerelease - " ++ cleanVersion, cleanVersion) :: suggestions
  else suggestions

/-- cmd/root.go validateVersion: reject the empty string, prepend v only
for the validation parse (the accepted value itself is left untouched),
accept iff go-version parses the result. -/
def validateVersion (s : String) : Except String Unit :=
  if s = "" then Except.error "version cannot be empty"
  else
    let versionStr := if hasPrefixGo s "v" then s else "v" ++ s
    match newSemver versionStr with
    | some _ => Except.ok ()
    | none => Except.error "invalid version format"

/-- Matches /v<digit> at the head of the remaining characters: the version
marker inside the extractor regex ^((.*)/v\d+|v\d+). -/
def isSlashVDigit : List Char → Bool
  | c1 :: c2 :: c3 :: _ => c1 = '/' && c2 = 'v' && c3.isDigit
  | _ => false

/-- Matches v<digit> at the head: the bare second alternative of the
extractor regex. -/
def isBareVDigit : List Char → Bool
  | c1 :: c2 :: _ => c1 = 'v' && c2.isDigit
  | _ => false

/-- The first alternative ^(.*)/v\d of the extractor regex under Go's
leftmost-first, greedy backtracking semantics: the longest leading segment
(one that cannot contain a newline, which .* never matches) followed by
/v<digit>.  Returns the captured group-2 segment. -/
def extractSeg : List Char → Option (List Char)
  | [] => none
  | c :: cs =>
    if c ≠ '\n' ∧ (extractSeg cs).isSome then (extractSeg cs).map (fun s => c :: s)
    else if isSlashVDigit (c :: cs) then some [] else none

/-- The per-tag regex match of cmd/root.go collectTagPrefixesFromGit: the
captured segment for a slash-prefixed tag (the greedy first alternative is
preferred), "" for a bare v<digit> tag, none when the tag matches
neither. -/
def extractPrefixTag (tag : List Char) : Option (List Char) :=
  match extractSeg tag with
  | some s => some s
  | none => if isBareVDigit tag then some [] else none

/-- One iteration of the accumulation loop of cmd/root.go
collectTagPrefixesFromGit: trim the tag, skip it when blank, insert the
extracted module name into the set when the regex matches. -/
def collectStep (acc : List String) (tag : String) : List String :=
  if trimGo tag = "" then acc
  else
    match extractPrefixTag (trimGo tag).data with
    | some s => if (⟨s⟩ : String) ∈ acc then acc else acc ++ [(⟨s⟩ : String)]
    | none => acc

/-- The accumulation loop of cmd/root.go collectTagPrefixesFromGit.  The
Go map is modelled as an insertion-ordered duplicate-free list; only the
set's membership is ever observed (Go map iteration order is random). -/
def collectTagPrefixes (tags : List String) : List String :=
  tags.foldl collectStep []

/-- cmd/root.go collectTagPrefixesFromGit: a failing git command and an
empty tag list both yield the empty set rather than an error. -/
def collectTagPrefixesFromGit (gitOutput : Option String) : List String :=
  match gitOutput with
  | none => []
  | some out =>
    match (splitOnChar '\n' (trimChars out.data)).map (fun l => (⟨l⟩ : String)) with
    | [t] => if t = "" then [] else collectTagPrefixes [t]
    | tags => collectTagPrefixes tags

/-- One verification result of the verify subcommand (its result struct):
the module name (Go field prefix, rendered pfx) and the counted
changes. -/
structure UpdateResult where
  pfx : String
  numChanges : Nat
deriving DecidableEq, Repr

/-- Go strings.Compare. -/
def goStringCompare (a b : String) : Int :=
  if a < b then -1 else if a = b then 0 else 1

/-- The comparator of the verify report sort: equal counts break ties by
ascending module name; a zero count sorts after everything else; otherwise
the larger count sorts first (b.numChanges - a.numChanges). -/
def rankCmp (a b : UpdateResult) : Int :=
  if a.numChanges = b.numChanges then goStringCompare a.pfx b.pfx
  else if a.numChanges = 0 then 1
  else if b.numChanges = 0 then -1
  else (b.numChanges : Int) - (a.numChanges : Int)

/-- The git log arguments built inside verify's checkForUpdates: the
range query, path-restricted by "-- <module>" exactly when path-based
checking is on and the module is not the root. -/
def checkForUpdatesArgs (isPathBased : Bool) (branch pfx tag : String) : List String :=
  let args := ["log", "--oneline", tag ++ ".." ++ ("origin/" ++ branch)]
  if isPathBased ∧ pfx ≠ "" then args ++ ["--", pfx] else args

/-- verify's checkForUpdates: build the tag, run git log over the
tag..origin/branch range, and count the newline-terminated output lines;
an empty buffer means zero changes, a failing command is an error. -/
def checkForUpdates (isPathBased : Bool) (branch pfx ver : String)
    (git : List String → Except String String) : Except String Nat :=
  let tag := getGitTagFromVersion pfx ver
  match git (checkForUpdatesArgs isPathBased branch pfx tag) with
  | Except.error _ => Except.error "failed to check git log"
  | Except.ok out =>
    if out.length > 0 then Except.ok (out.data.count '\n') else Except.ok 0

/-- verify's errgroup aggregation: every task runs and appends its result
under the mutex; eg.Wait surfaces an error iff some task failed (which of
several racing errors is returned is schedule-dependent; the model takes
the first in list order), and the collected results survive only when
every task succeeded. -/
def runVerifyTasks (outcomes : List (Except String UpdateResult)) :
    Except String (List UpdateResult) :=
  match outcomes.findSome?
      (fun o => match o with | Except.error e => some e | Except.ok _ => none) with
  | some e => Except.error e
  | none => Except.ok (outcomes.filterMap (fun o => o.toOption))

/-- verify after the errgroup join: on success the results are ranked for
printing; on any failure the error alone is returned and no report is
produced. -/
def verifyReport (outcomes : List (Except String UpdateResult)) :
    Except String (List UpdateResult) :=
  (runVerifyTasks outcomes).map (sortFuncGo rankCmp)

/-! ### Generic facts about the slices.SortFunc model -/

theorem insertRev_cons {α : Type _} (cmp : α → α → Int) (x y : α) (ys : List α) :
    insertRev cmp x (y :: ys) =
      if cmp x y < 0 then y :: insertRev cmp x ys else x :: y :: ys := rfl

theorem insertRev_ne_nil {α : Type _} (cmp : α → α → Int) (x : α) (l : List α) :
    insertRev cmp x l ≠ [] := by
  cases l with
  | nil => simp [insertRev]
  | cons y ys => rw [insertRev_cons]; split <;> simp

theorem insertRev_perm {α : Type _} (cmp : α → α → Int) (x : α) (l : List α) :
    (insertRev cmp x l).Perm (x :: l) := by
  induction l with
  | nil => exact List.Perm.refl _
  | cons y ys ih =>
    rw [insertRev_cons]
    split
    · exact (ih.cons y).trans (List.Perm.swap x y ys)
    · exact List.Perm.refl _

theorem insertRev_append {α : Type _} (cmp : α → α → Int) (x : α) (l : List α)
    (h : ∀ y ∈ l, cmp x y < 0) : insertRev cmp x l = l ++ [x] := by
  induction l with
  | nil => rfl
  | cons y ys ih =>
    rw [insertRev_cons, if_pos (h y (by simp)), ih (fun z hz => h z (by simp [hz]))]
    rfl

theorem insertRev_getLast? {α : Type _} (cmp : α → α → Int) (x m : α) (l : List α)
    (hl : l.getLast? = some m) (hx : ¬cmp x m < 0) :
    (insertRev cmp x l).getLast? = some m := by
  induction l with
  | nil => simp at hl
  | cons y ys ih =>
    cases ys with
    | nil =>
      have hym : y = m := by simpa using hl
      subst hym
      rw [insertRev_cons, if_neg hx]
      rfl
    | cons z zs =>
      have htail : (z :: zs).getLast? = some m := by
        rw [← List.getLast?_cons_cons (a := y)]
        exact hl
      by_cases hxy : cmp x y < 0
      · rw [insertRev_cons, if_pos hxy]
        obtain ⟨w, ws, hw⟩ := List.exists_cons_of_ne_nil (insertRev_ne_nil cmp x (z :: zs))
        rw [hw, List.getLast?_cons_cons, ← hw]
        exact ih htail
      · rw [insertRev_cons, if_neg hxy, List.getLast?_cons_cons]
        exact hl

theorem foldlIns_perm {α : Type _} (cmp : α → α → Int) (acc l : List α) :
    (foldlIns cmp acc l).Perm (l ++ acc) := by
  induction l generalizing acc with
  | nil => exact List.Perm.refl _
  | cons x xs ih =>
    have step : foldlIns cmp acc (x :: xs) = foldlIns cmp (insertRev cmp x acc) xs := rfl
    rw [step]
    refine (ih (insertRev cmp x acc)).trans ?_
    refine ((insertRev_perm cmp x acc).append_left xs).trans ?_
    exact List.perm_middle

theorem foldlIns_getLast {α : Type _} (cmp : α → α → Int) (m : α) (l : List α) :
    ∀ acc : List α,
      (∀ x ∈ l, x ≠ m → cmp m x < 0) →
      (∀ x ∈ l, ¬cmp x m < 0) →
      (acc.getLast? = some m ∨ (m ∉ acc ∧ ∀ y ∈ acc, cmp m y < 0)) →
      ((foldlIns cmp acc l).getLast? = some m ∨
        (m ∉ foldlIns cmp acc l ∧ ∀ y ∈ foldlIns cmp acc l, cmp m y < 0)) := by
  induction l with
  | nil => intro acc _ _ hinv; exact hinv
  | cons x xs ih =>
    intro acc h2 h3 hinv
    have step : foldlIns cmp acc (x :: xs) = foldlIns cmp (insertRev cmp x acc) xs := rfl
    rw [step]
    refine ih (insertRev cmp x acc) (fun z hz hne => h2 z (by simp [hz]) hne)
      (fun z hz => h3 z (by simp [hz])) ?_
    rcases hinv with hlast | ⟨hnm, hall⟩
    · exact Or.inl (insertRev_getLast? cmp x m acc hlast (h3 x (by simp)))
    · by_cases hx : x = m
      · subst hx
        left
        rw [insertRev_append cmp x acc hall]
        exact List.getLast?_concat acc
      · right
        constructor
        · intro hmem
          rcases List.mem_cons.mp ((insertRev_perm cmp x acc).mem_iff.mp hmem) with h | h
          · exact hx h.symm
          · exact hnm h
        · intro y hy
          rcases List.mem_cons.mp ((insertRev_perm cmp x acc).mem_iff.mp hy) with h | h
          · subst h; exact h2 y (by simp) hx
          · exact hall y h

theorem sortFuncGo_head? {α : Type _} (cmp : α → α → Int) (m : α) (l : List α)
    (hm : m ∈ l) (h2 : ∀ x ∈ l, x ≠ m → cmp m x < 0) (h3 : ∀ x ∈ l, ¬cmp x m < 0) :
    (sortFuncGo cmp l).head? = some m := by
  have hinv := foldlIns_getLast cmp m l [] h2 h3 (Or.inr (by simp))
  have hperm : (foldlIns cmp [] l).Perm l := (foldlIns_perm cmp [] l).trans (by simp)
  rcases hinv with hlast | ⟨hnm, _⟩
  · show (foldlIns cmp [] l).reverse.head? = some m
    rw [List.head?_reverse]
    exact hlast
  · exact absurd (hperm.mem_iff.mpr hm) hnm

theorem sortFuncGo_perm {α : Type _} (cmp : α → α → Int) (l : List α) :
    (sortFuncGo cmp l).Perm l := by
  have h : sortFuncGo cmp l = (foldlIns cmp [] l).reverse := rfl
  rw [h]
  exact (List.reverse_perm _).trans ((foldlIns_perm cmp [] l).trans (by simp))

/-! ### The go-version comparison is asymmetric -/

theorem comparePart_eq_zero {a b : String} : comparePart a b = 0 ↔ a = b := by
  constructor
  · intro h
    by_contra hne
    unfold comparePart at h
    rw [if_neg hne] at h
    split_ifs at h <;> omega
  · intro h
    subst h
    simp [comparePart]

theorem comparePart_asymm {a b : String} (h : 0 < comparePart a b) : comparePart b a < 0 := by
  have hab : a ≠ b := by
    intro e
    subst e
    simp [comparePart] at h
  have hba : b ≠ a := fun e => hab e.symm
  unfold comparePart at h ⊢
  rw [if_neg hab] at h
  rw [if_neg hba]
  by_cases ha : a = ""
  · subst ha
    rw [if_pos rfl] at h
    rw [if_neg hba, if_pos rfl]
    split_ifs at h ⊢ <;> omega
  · by_cases hb : b = ""
    · subst hb
      rw [if_neg ha, if_pos rfl] at h
      rw [if_pos rfl]
      split_ifs at h ⊢ <;> omega
    · rw [if_neg ha, if_neg hb] at h
      rw [if_neg hb, if_neg ha]
      by_cases hA : (parseIntGo a).isSome <;> by_cases hB : (parseIntGo b).isSome
      · rw [if_neg (by simp [hA, hB]), if_neg (by simp [hA, hB]),
          if_neg (by simp [hA, hB])] at h
        rw [if_neg (by simp [hA, hB]), if_neg (by simp [hA, hB]),
          if_neg (by simp [hA, hB])]
        split_ifs at h ⊢ <;> omega
      · rw [if_pos (by simp [hA, hB])] at h
        omega
      · rw [if_pos (by simp [hA, hB])]
        omega
      · rw [if_neg (by simp [hA]), if_neg (by simp [hB]), if_pos (by simp [hA, hB])] at h
        rw [if_neg (by simp [hB]), if_neg (by simp [hA]), if_pos (by simp [hA, hB])]
        have hba' : b < a := by
          split_ifs at h with hc
          · exact hc
          · omega
        rw [if_neg (asymm hba')]
        omega

theorem cmpPreParts_cons (a b : String) (rest : List (String × String)) :
    cmpPreParts ((a, b) :: rest) =
      if comparePart a b = 0 then cmpPreParts rest else comparePart a b := rfl

theorem cmpPreParts_swap_neg : ∀ (xs ys : List String), xs.length = ys.length →
    0 < cmpPreParts (xs.zip ys) → cmpPreParts (ys.zip xs) < 0 := by
  intro xs
  induction xs with
  | nil =>
    intro ys _ h
    simp [cmpPreParts] at h
  | cons x xs' ih =>
    intro ys hlen h
    cases ys with
    | nil => simp at hlen
    | cons y ys' =>
      rw [List.zip_cons_cons, cmpPreParts_cons] at h
      rw [List.zip_cons_cons, cmpPreParts_cons]
      by_cases h0 : comparePart x y = 0
      · have h0' : comparePart y x = 0 :=
          comparePart_eq_zero.mpr (comparePart_eq_zero.mp h0).symm
        rw [if_pos h0] at h
        rw [if_pos h0']
        exact ih ys' (by simpa using hlen) h
      · have h0' : ¬comparePart y x = 0 := fun e =>
          h0 (comparePart_eq_zero.mpr (comparePart_eq_zero.mp e).symm)
        rw [if_neg h0] at h
        rw [if_neg h0']
        exact comparePart_asymm h

theorem comparePrereleases_asymm {a b : List String} (h : 0 < comparePrereleases a b) :
    comparePrereleases b a < 0 := by
  have hne : a ≠ b := by
    intro e
    subst e
    simp [comparePrereleases] at h
  unfold comparePrereleases at h ⊢
  rw [if_neg hne] at h
  rw [if_neg (fun e => hne e.symm)]
  have hlen : (padParts (max a.length b.length) a).length =
      (padParts (max a.length b.length) b).length := by
    simp only [padParts, List.length_append, List.length_replicate]
    omega
  rw [Nat.max_comm b.length a.length]
  exact cmpPreParts_swap_neg _ _ hlen h

theorem cmpSegs_asymm : ∀ as bs : List Nat, 0 < cmpSegs as bs → cmpSegs bs as < 0 := by
  intro as
  induction as with
  | nil =>
    intro bs h
    cases bs with
    | nil => simp [cmpSegs] at h
    | cons b bs' =>
      unfold cmpSegs at h
      split_ifs at h <;> omega
  | cons a as' ih =>
    intro bs h
    cases bs with
    | nil =>
      unfold cmpSegs at h ⊢
      split_ifs at h ⊢ <;> omega
    | cons b bs' =>
      unfold cmpSegs at h ⊢
      by_cases hab : a = b
      · subst hab
        rw [if_pos rfl] at h
        rw [if_pos rfl]
        exact ih bs' h
      · rw [if_neg hab] at h
        rw [if_neg (fun e => hab e.symm)]
        split_ifs at h ⊢ <;> omega

theorem compareVersion_self (v : GoVersion) : compareVersion v v = 0 := by
  simp [compareVersion]

theorem compareVersion_asymm {v w : GoVersion} (h : 0 < compareVersion v w) :
    compareVersion w v < 0 := by
  have hne : v ≠ w := by
    intro e
    subst e
    rw [compareVersion_self] at h
    omega
  have hne' : w ≠ v := fun e => hne e.symm
  unfold compareVersion at h ⊢
  rw [if_neg hne] at h
  rw [if_neg hne']
  by_cases hseg : v.segments = w.segments
  · rw [if_pos hseg] at h
    rw [if_pos hseg.symm]
    generalize v.pre = vp at h ⊢
    generalize w.pre = wp at h ⊢
    rcases vp with _ | ⟨a, as⟩ <;> rcases wp with _ | ⟨b, bs⟩
    · exact absurd h (show ¬(0 : Int) < 0 by decide)
    · show (-1 : Int) < 0
      decide
    · exact absurd h (show ¬(0 : Int) < -1 by decide)
    · exact comparePrereleases_asymm h
  · rw [if_neg hseg] at h
    rw [if_neg (fun e => hseg e.symm)]
    exact cmpSegs_asymm _ _ h

/-! ### Resolver selection: the sorted head is the strict maximum -/

theorem versionGT_asymm {v w : GoVersion} (h : versionGT v w = true) :
    versionGT w v = false := by
  simp only [versionGT, decide_eq_true_eq] at h
  simp only [versionGT, decide_eq_false_iff_not]
  have := compareVersion_asymm h
  omega

theorem versionGT_irrefl (v : GoVersion) : versionGT v v = false := by
  simp only [versionGT, decide_eq_false_iff_not, compareVersion_self]
  omega

/-- Helper for the Resolver claims: when every listed tag parses after
marker stripping and the version of m is strictly greater than every other
tag's version, getCurrentVersionFromTags returns m, whitespace-trimmed and
marker-stripped. -/
theorem getCurrentVersionFromTags_eq_max (pfx : String) (tags : List String) (m : String)
    (hm : m ∈ tags)
    (hparse : ∀ t ∈ tags, (newSemver (trimPrefixGo t (matchMarker pfx))).isSome = true)
    (hmax : ∀ t ∈ tags, t ≠ m → ∃ vm vt,
      newSemver (trimPrefixGo m (matchMarker pfx)) = some vm ∧
      newSemver (trimPrefixGo t (matchMarker pfx)) = some vt ∧ versionGT vm vt = true) :
    getCurrentVersionFromTags pfx tags =
      Except.ok (trimPrefixGo (trimGo m) (matchMarker pfx)) := by
  have h2 : ∀ t ∈ tags, t ≠ m → tagSortCmp (matchMarker pfx) m t < 0 := by
    intro t ht hne
    obtain ⟨vm, vt, hvm, hvt, hgt⟩ := hmax t ht hne
    unfold tagSortCmp
    rw [hvm, hvt]
    simp [hgt]
  have h3 : ∀ t ∈ tags, ¬tagSortCmp (matchMarker pfx) t m < 0 := by
    intro t ht
    obtain ⟨vm, hvm⟩ := Option.isSome_iff_exists.mp (hparse m hm)
    obtain ⟨vt, hvt⟩ := Option.isSome_iff_exists.mp (hparse t ht)
    unfold tagSortCmp
    rw [hvm, hvt]
    by_cases hne : t = m
    · subst hne
      have hv : vt = vm := Option.some.inj (hvt.symm.trans hvm)
      subst hv
      show ¬(if versionGT vt vt = true then (-1 : Int) else 1) < 0
      rw [versionGT_irrefl]
      simp
    · obtain ⟨vm', vt', hvm', hvt', hgt⟩ := hmax t ht hne
      have e1 : vm = vm' := Option.some.inj (hvm.symm.trans hvm')
      have e2 : vt = vt' := Option.some.inj (hvt.symm.trans hvt')
      subst e1
      subst e2
      show ¬(if versionGT vt vm = true then (-1 : Int) else 1) < 0
      rw [versionGT_asymm hgt]
      simp
  have hlen : ¬tags.length = 0 := by
    intro h0
    rw [List.length_eq_zero] at h0
    subst h0
    simp at hm
  have hhead := sortFuncGo_head? (tagSortCmp (matchMarker pfx)) m tags hm h2 h3
  have hne2 : sortFuncGo (tagSortCmp (matchMarker pfx)) tags ≠ [] := by
    intro he
    rw [he] at hhead
    simp at hhead
  obtain ⟨t, ts, hts⟩ := List.exists_cons_of_ne_nil hne2
  have htm : t = m := by
    rw [hts] at hhead
    simpa using hhead
  subst htm
  simp only [getCurrentVersionFromTags]
  rw [if_neg hlen, hts]

/-! ### Claims about the Version Resolver (C1, C5, C6) -/

/-- C1 (amended): for every module whose matching tag list parses
completely — every tag's marker-stripped suffix is SemVer — and in which
one tag's version is strictly greater than every other tag's under the
library comparison (the SemVer maximum; numeric, not lexicographic), the
Version Resolver returns exactly that maximal tag's version suffix.  The
original claim's clause "after discarding matches whose version suffix
does not parse" is false of the code: an unparseable match compares equal
to everything and can be returned verbatim (see the counterexample). -/
theorem resolver_returns_strict_semver_max (pfx : String) (tags : List String) (m : String)
    (hm : m ∈ tags)
    (hparse : ∀ t ∈ tags, (newSemver (trimPrefixGo t (matchMarker pfx))).isSome = true)
    (hmax : ∀ t ∈ tags, t ≠ m → ∃ vm vt,
      newSemver (trimPrefixGo m (matchMarker pfx)) = some vm ∧
      newSemver (trimPrefixGo t (matchMarker pfx)) = some vt ∧ versionGT vm vt = true) :
    getCurrentVersionFromTags pfx tags =
      Except.ok (trimPrefixGo (trimGo m) (matchMarker pfx)) :=
  getCurrentVersionFromTags_eq_max pfx tags m hm hparse hmax

/-- Witness for C1: the spec's own example; 2.0.0-rc1 beats 1.10.0, which
beats 1.2.0 by numeric comparison of the minor segment. -/
theorem resolver_returns_strict_semver_max_witness :
    getCurrentVersionFromTags "" ["v1.2.0", "v1.10.0", "v2.0.0-rc1"] =
      Except.ok "2.0.0-rc1" := by
  refine Eq.trans
    (resolver_returns_strict_semver_max "" ["v1.2.0", "v1.10.0", "v2.0.0-rc1"] "v2.0.0-rc1"
      (by decide) (by decide) ?_) (by rfl)
  intro t ht hne
  fin_cases ht
  · exact ⟨⟨[2, 0, 0], ["rc1"]⟩, ⟨[1, 2, 0], []⟩, rfl, rfl, rfl⟩
  · exact ⟨⟨[2, 0, 0], ["rc1"]⟩, ⟨[1, 10, 0], []⟩, rfl, rfl, rfl⟩
  · exact absurd rfl hne

/-- Counterexample to C1 as stated: with matching tags [va, v2.0.0] the
unparseable match va is not discarded; the Resolver returns "a" although
the SemVer maximum among parseable matches is 2.0.0. -/
theorem resolver_keeps_unparseable_match :
    getCurrentVersionFromTags "" ["va", "v2.0.0"] = Except.ok "a" ∧
    newSemver (trimPrefixGo "va" (matchMarker "")) = none ∧
    newSemver (trimPrefixGo "v2.0.0" (matchMarker "")) = some ⟨[2, 0, 0], []⟩ ∧
    "a" ≠ "2.0.0" :=
  ⟨rfl, rfl, rfl, by decide⟩

/-- C5: at the claim's failing input — the git query succeeds but zero
tags match, so the output is empty — the Resolver returns Except.ok ""
rather than a NoVersionFound error: strings.Split of the empty output is
[""], of length one, so the len(tags) == 0 guard (the intended error
branch) is dead code. -/
theorem resolver_zero_tags_returns_empty_ok :
    getCurrentVersion "" (some "") = Except.ok "" ∧
    (splitOnChar '\n' (trimChars "".data)).length = 1 :=
  ⟨rfl, rfl⟩

/-- C6 (amended): the Resolver is permutation-invariant — two orderings of
the same tag set resolve to the same current version — provided every
matching tag parses and one tag's version is strictly greater than every
other's.  Without the parseability proviso the claim is false (see the
counterexample): unparseable tags compare equal to everything, and the
insertion sort then preserves input order, making the result
order-dependent. -/
theorem resolver_deterministic_under_permutation (pfx : String) (tags₁ tags₂ : List String)
    (m : String) (hperm : tags₁.Perm tags₂) (hm : m ∈ tags₁)
    (hparse : ∀ t ∈ tags₁, (newSemver (trimPrefixGo t (matchMarker pfx))).isSome = true)
    (hmax : ∀ t ∈ tags₁, t ≠ m → ∃ vm vt,
      newSemver (trimPrefixGo m (matchMarker pfx)) = some vm ∧
      newSemver (trimPrefixGo t (matchMarker pfx)) = some vt ∧ versionGT vm vt = true) :
    getCurrentVersionFromTags pfx tags₁ = getCurrentVersionFromTags pfx tags₂ := by
  rw [getCurrentVersionFromTags_eq_max pfx tags₁ m hm hparse hmax,
    getCurrentVersionFromTags_eq_max pfx tags₂ m (hperm.mem_iff.mp hm)
      (fun t ht => hparse t (hperm.mem_iff.mpr ht))
      (fun t ht => hmax t (hperm.mem_iff.mpr ht))]

/-- Witness for C6: the two orderings of {v1.2.0, v1.10.0} resolve
identically. -/
theorem resolver_deterministic_under_permutation_witness :
    getCurrentVersionFromTags "" ["v1.2.0", "v1.10.0"] =
      getCurrentVersionFromTags "" ["v1.10.0", "v1.2.0"] := by
  refine resolver_deterministic_under_permutation "" _ _ "v1.10.0"
    (List.Perm.swap _ _ _) (by decide) (by decide) ?_
  intro t ht hne
  fin_cases ht
  · exact ⟨⟨[1, 10, 0], []⟩, ⟨[1, 2, 0], []⟩, rfl, rfl, rfl⟩
  · exact absurd rfl hne

/-- Counterexample to C6 as stated: the two orderings of the set
{va, v1.0.0} resolve to different current versions, because the
unparseable tag va compares equal to everything. -/
theorem resolver_order_dependent_with_unparseable :
    (["va", "v1.0.0"] : List String).Perm ["v1.0.0", "va"] ∧
    getCurrentVersionFromTags "" ["va", "v1.0.0"] = Except.ok "a" ∧
    getCurrentVersionFromTags "" ["v1.0.0", "va"] = Except.ok "1.0.0" ∧
    ("a" : String) ≠ "1.0.0" :=
  ⟨List.Perm.swap "v1.0.0" "va" [], rfl, rfl, by decide⟩

/-! ### Round-trip of tag construction and marker stripping (C8) -/

theorem trimPrefixGo_append (p ver : String) : trimPrefixGo (p ++ ver) p = ver := by
  cases p with
  | mk pd =>
    cases ver with
    | mk vd =>
      unfold trimPrefixGo
      have hdata : ((⟨pd⟩ : String) ++ ⟨vd⟩).data = pd ++ vd := rfl
      rw [hdata]
      have hp : ((⟨pd⟩ : String)).data = pd := rfl
      rw [hp]
      rw [if_pos (by rw [List.isPrefixOf_iff_prefix]; exact List.prefix_append pd vd)]
      rw [List.drop_left]

/-- C8: composing getGitTagFromVersion with stripping of the module
marker ("v" for the root module, "<module>/v" otherwise, exactly the
TrimPrefix in getCurrentVersion) yields back the original version string
for every (module, version) pair, the root included. -/
theorem tag_roundtrip_strips_to_version (pfx ver : String) :
    trimPrefixGo (getGitTagFromVersion pfx ver) (matchMarker pfx) = ver := by
  unfold getGitTagFromVersion matchMarker
  by_cases h : pfx = ""
  · rw [if_pos h, if_pos h]
    exact trimPrefixGo_append "v" ver
  · rw [if_neg h, if_neg h]
    exact trimPrefixGo_append (pfx ++ "/v") ver

/-! ### The doubled v marker (C10) -/

/-- C10: a free-form version that already begins with v and parses as
SemVer passes validateVersion — the v is prepended only for the validation
parse and never stripped from the accepted value — and the subsequent root
tag construction prepends v to the accepted string verbatim, so the
created tag begins with the doubled marker vv. -/
theorem validate_accepts_v_and_tag_doubles_v (s : String)
    (hv : s.data.head? = some 'v') (hp : (newSemver s).isSome = true) :
    validateVersion s = Except.ok () ∧
    getGitTagFromVersion "" s = "v" ++ s ∧
    ("v" ++ s).data.take 2 = ['v', 'v'] := by
  have hs : s ≠ "" := by
    intro e
    subst e
    simp at hv
  have hpre : hasPrefixGo s "v" = true := by
    unfold hasPrefixGo
    cases s with
    | mk d =>
      cases d with
      | nil => simp at hv
      | cons c cs =>
        have hc : c = 'v' := by simpa using hv
        subst hc
        rw [List.isPrefixOf_iff_prefix]
        exact ⟨cs, rfl⟩
  refine ⟨?_, rfl, ?_⟩
  · unfold validateVersion
    rw [if_neg hs]
    obtain ⟨v, hv'⟩ := Option.isSome_iff_exists.mp hp
    simp only [hpre, if_true]
    rw [hv']
  · cases s with
    | mk d =>
      cases d with
      | nil => simp at hv
      | cons c cs =>
        have hc : c = 'v' := by simpa using hv
        subst hc
        rfl

/-- Witness for C10 at the concrete input v1.2.3: accepted, and the
created root tag is vv1.2.3. -/
theorem validate_accepts_v_and_tag_doubles_v_witness :
    validateVersion "v1.2.3" = Except.ok () ∧
    getGitTagFromVersion "" "v1.2.3" = "vv1.2.3" := by
  have h := validate_accepts_v_and_tag_doubles_v "v1.2.3" (by decide) (by decide)
  exact ⟨h.1, h.2.1.trans (by rfl)⟩

/-! ### The Version Proposer (C2) -/

/-- C2: the Proposer is a pure function of the parsed current version
M.N.P: with no prerelease it offers exactly [patch = M.N.(P+1),
minor = M.(N+1).0, major = (M+1).0.0] in that order and nothing else;
with a prerelease present it additionally offers
remove-prerelease = M.N.P, listed first.  The spec's two concrete
examples 1.4.9 and 2.0.0-beta.1 are checked end to end through the
parser. -/
theorem proposer_candidates_exact (M N P : Nat) (pre : List String) :
    generateNewVersionOptions ⟨[M, N, P], []⟩ =
      [("patch - " ++ fmtTriple M N (P + 1), fmtTriple M N (P + 1)),
        ("minor - " ++ fmtTriple M (N + 1) 0, fmtTriple M (N + 1) 0),
        ("major - " ++ fmtTriple (M + 1) 0 0, fmtTriple (M + 1) 0 0)] ∧
    (pre ≠ [] →
      generateNewVersionOptions ⟨[M, N, P], pre⟩ =
        ("remove prerelease - " ++ fmtTriple M N P, fmtTriple M N P) ::
          [("patch - " ++ fmtTriple M N (P + 1), fmtTriple M N (P + 1)),
            ("minor - " ++ fmtTriple M (N + 1) 0, fmtTriple M (N + 1) 0),
            ("major - " ++ fmtTriple (M + 1) 0 0, fmtTriple (M + 1) 0 0)]) ∧
    (newSemver "1.4.9").map generateNewVersionOptions =
      some [("patch - 1.4.10", "1.4.10"), ("minor - 1.5.0", "1.5.0"),
        ("major - 2.0.0", "2.0.0")] ∧
    (newSemver "2.0.0-beta.1").map generateNewVersionOptions =
      some [("remove prerelease - 2.0.0", "2.0.0"), ("patch - 2.0.1", "2.0.1"),
        ("minor - 2.1.0", "2.1.0"), ("major - 3.0.0", "3.0.0")] := by
  refine ⟨?_, ?_, by rfl, by rfl⟩
  · simp [generateNewVersionOptions]
  · intro hpre
    have hlen : 0 < pre.length := List.length_pos.mpr hpre
    simp [generateNewVersionOptions, hlen]

/-- Witness for C2 at the spec's concrete versions. -/
theorem proposer_candidates_exact_witness :
    generateNewVersionOptions ⟨[1, 4, 9], []⟩ =
      [("patch - 1.4.10", "1.4.10"), ("minor - 1.5.0", "1.5.0"), ("major - 2.0.0", "2.0.0")] ∧
    generateNewVersionOptions ⟨[2, 0, 0], ["beta", "1"]⟩ =
      [("remove prerelease - 2.0.0", "2.0.0"), ("patch - 2.0.1", "2.0.1"),
        ("minor - 2.1.0", "2.1.0"), ("major - 3.0.0", "3.0.0")] := by
  have h1 := proposer_candidates_exact 1 4 9 []
  have h2 := proposer_candidates_exact 2 0 0 ["beta", "1"]
  exact ⟨h1.1.trans (by rfl), (h2.2.1 (by decide)).trans (by rfl)⟩

/-! ### The Report Ranker (C3) -/

theorem goStringCompare_neg (a b : String) : goStringCompare b a = -goStringCompare a b := by
  unfold goStringCompare
  rcases lt_trichotomy a b with h | h | h
  · rw [if_neg (asymm h), if_neg (ne_of_gt h), if_pos h]
    norm_num
  · subst h
    rw [if_neg (lt_irrefl a), if_pos rfl]
    simp
  · rw [if_pos h, if_neg (asymm h), if_neg (ne_of_gt h)]

theorem rankCmp_neg (a b : UpdateResult) : rankCmp b a = -rankCmp a b := by
  unfold rankCmp
  by_cases h1 : a.numChanges = b.numChanges
  · rw [if_pos h1, if_pos h1.symm, goStringCompare_neg]
  · have h1x : ¬b.numChanges = a.numChanges := fun e => h1 e.symm
    rw [if_neg h1, if_neg h1x]
    split_ifs <;> omega

theorem rankCmp_eq_zero_iff {a b : UpdateResult} : rankCmp a b = 0 ↔ a = b := by
  constructor
  · intro h
    unfold rankCmp at h
    by_cases h1 : a.numChanges = b.numChanges
    · rw [if_pos h1] at h
      unfold goStringCompare at h
      by_cases hlt : a.pfx < b.pfx
      · rw [if_pos hlt] at h
        exact absurd h (by norm_num)
      · rw [if_neg hlt] at h
        by_cases heq : a.pfx = b.pfx
        · cases a with
          | mk ap an =>
            cases b with
            | mk bp bn =>
              have e1 : an = bn := h1
              have e2 : ap = bp := heq
              subst e1
              subst e2
              rfl
        · rw [if_neg heq] at h
          exact absurd h (by norm_num)
    · rw [if_neg h1] at h
      by_cases h2 : a.numChanges = 0
      · rw [if_pos h2] at h
        exact absurd h (by norm_num)
      · rw [if_neg h2] at h
        by_cases h3 : b.numChanges = 0
        · rw [if_pos h3] at h
          exact absurd h (by norm_num)
        · rw [if_neg h3] at h
          exfalso
          omega
  · intro h
    subst h
    unfold rankCmp goStringCompare
    rw [if_pos rfl, if_neg (lt_irrefl _), if_pos rfl]

theorem goStringCompare_le_iff {a b : String} : goStringCompare a b ≤ 0 ↔ a ≤ b := by
  unfold goStringCompare
  split_ifs with h1 h2
  · constructor
    · intro _
      exact le_of_lt h1
    · intro _
      norm_num
  · subst h2
    constructor
    · intro _
      exact le_refl a
    · intro _
      norm_num
  · have hba : b < a := lt_of_le_of_ne (le_of_not_lt h1) (fun e => h2 e.symm)
    constructor
    · intro hc
      exact absurd hc (by norm_num)
    · intro hc
      exact absurd hba (not_lt_of_le hc)

theorem rankCmp_le_iff {a b : UpdateResult} :
    rankCmp a b ≤ 0 ↔
      (a.numChanges = b.numChanges ∧ a.pfx ≤ b.pfx) ∨
      (a.numChanges ≠ b.numChanges ∧ a.numChanges ≠ 0 ∧
        (b.numChanges = 0 ∨ b.numChanges < a.numChanges)) := by
  unfold rankCmp
  split_ifs with h1 h2 h3
  · rw [goStringCompare_le_iff]
    constructor
    · intro h
      exact Or.inl ⟨h1, h⟩
    · intro h
      rcases h with ⟨_, h⟩ | ⟨hne, _⟩
      · exact h
      · exact absurd h1 hne
  · constructor
    · intro h
      exact absurd h (by norm_num)
    · intro h
      rcases h with ⟨he, _⟩ | ⟨_, hnz, _⟩
      · exact absurd he h1
      · exact absurd h2 hnz
  · constructor
    · intro _
      exact Or.inr ⟨h1, h2, Or.inl h3⟩
    · intro _
      norm_num
  · constructor
    · intro h
      refine Or.inr ⟨h1, h2, Or.inr ?_⟩
      omega
    · intro h
      rcases h with ⟨he, _⟩ | ⟨_, _, hlt⟩
      · exact absurd he h1
      · rcases hlt with hz | hlt
        · exact absurd hz h3
        · omega

theorem rankCmp_le_trans {a b c : UpdateResult} (hab : rankCmp a b ≤ 0)
    (hbc : rankCmp b c ≤ 0) : rankCmp a c ≤ 0 := by
  rw [rankCmp_le_iff] at hab hbc ⊢
  rcases hab with ⟨e1, p1⟩ | ⟨n1, z1, d1⟩
  · rcases hbc with ⟨e2, p2⟩ | ⟨n2, z2, d2⟩
    · exact Or.inl ⟨e1.trans e2, le_trans p1 p2⟩
    · refine Or.inr ⟨by omega, by omega, by omega⟩
  · rcases hbc with ⟨e2, p2⟩ | ⟨n2, z2, d2⟩
    · refine Or.inr ⟨by omega, by omega, by omega⟩
    · refine Or.inr ⟨by omega, by omega, by omega⟩

theorem rankCmp_le_antisymm {a b : UpdateResult} (h1 : rankCmp a b ≤ 0)
    (h2 : rankCmp b a ≤ 0) : a = b := by
  rw [rankCmp_neg] at h2
  have h0 : rankCmp a b = 0 := by omega
  exact rankCmp_eq_zero_iff.mp h0

theorem insertRev_head? {α : Type _} (cmp : α → α → Int) (x : α) (l : List α) :
    (insertRev cmp x l).head? = some x ∨ (insertRev cmp x l).head? = l.head? := by
  cases l with
  | nil =>
    left
    rfl
  | cons y ys =>
    rw [insertRev_cons]
    split
    · right
      rfl
    · left
      rfl

theorem insertRev_chain' {α : Type _} (cmp : α → α → Int) (x : α) (l : List α)
    (h : l.Chain' (fun u v => ¬cmp u v < 0 ∨ cmp v u < 0)) :
    (insertRev cmp x l).Chain' (fun u v => ¬cmp u v < 0 ∨ cmp v u < 0) := by
  induction l with
  | nil => exact List.chain'_singleton x
  | cons y ys ih =>
    rw [insertRev_cons]
    rcases List.chain'_cons'.mp h with ⟨hy, hys⟩
    split
    · rename_i hxy
      refine List.chain'_cons'.mpr ⟨?_, ih hys⟩
      intro z hz
      rcases insertRev_head? cmp x ys with he | he
      · rw [he] at hz
        have hzx : x = z := by simpa using hz
        subst hzx
        exact Or.inr hxy
      · rw [he] at hz
        exact hy z hz
    · rename_i hxy
      refine List.chain'_cons'.mpr ⟨?_, h⟩
      intro z hz
      have hzy : y = z := by simpa using hz
      subst hzy
      exact Or.inl hxy

theorem foldlIns_chain' {α : Type _} (cmp : α → α → Int) (l : List α) :
    ∀ acc : List α, acc.Chain' (fun u v => ¬cmp u v < 0 ∨ cmp v u < 0) →
      (foldlIns cmp acc l).Chain' (fun u v => ¬cmp u v < 0 ∨ cmp v u < 0) := by
  induction l with
  | nil => intro acc h; exact h
  | cons x xs ih =>
    intro acc h
    exact ih (insertRev cmp x acc) (insertRev_chain' cmp x acc h)

theorem sortFuncGo_rankCmp_chain (l : List UpdateResult) :
    (sortFuncGo rankCmp l).Chain' (fun u v => rankCmp u v ≤ 0) := by
  have hJ : (foldlIns rankCmp [] l).Chain'
      (fun u v => ¬rankCmp u v < 0 ∨ rankCmp v u < 0) :=
    foldlIns_chain' rankCmp l [] List.chain'_nil
  have hrev : (sortFuncGo rankCmp l).Chain'
      (flip (fun u v => ¬rankCmp u v < 0 ∨ rankCmp v u < 0)) := by
    show ((foldlIns rankCmp [] l).reverse).Chain' _
    exact List.chain'_reverse.mpr hJ
  refine List.Chain'.imp ?_ hrev
  intro u v huv
  have hneg := rankCmp_neg u v
  rcases huv with h | h <;> omega

theorem sortFuncGo_rankCmp_perm_eq {l₁ l₂ : List UpdateResult} (h : l₁.Perm l₂) :
    sortFuncGo rankCmp l₁ = sortFuncGo rankCmp l₂ := by
  haveI : IsTrans UpdateResult (fun u v => rankCmp u v ≤ 0) :=
    ⟨fun _ _ _ => rankCmp_le_trans⟩
  haveI : IsAntisymm UpdateResult (fun u v => rankCmp u v ≤ 0) :=
    ⟨fun _ _ => rankCmp_le_antisymm⟩
  have hp : (sortFuncGo rankCmp l₁).Perm (sortFuncGo rankCmp l₂) :=
    (sortFuncGo_perm rankCmp l₁).trans (h.trans (sortFuncGo_perm rankCmp l₂).symm)
  exact List.eq_of_perm_of_sorted hp
    (List.chain'_iff_pairwise.mp (sortFuncGo_rankCmp_chain l₁))
    (List.chain'_iff_pairwise.mp (sortFuncGo_rankCmp_chain l₂))

/-- C3: the Report Ranker's comparator sorts every zero-count result after
every nonzero-count result; among nonzero counts the larger count sorts
first; all count ties (the all-zero group included) break by ascending
lexicographic module name; the comparator is a total order on results —
asymmetric, zero exactly on equal results, transitive at the level of its
nonstrict relation — and sorting any two orderings of the same result set
produces the identical sequence. -/
theorem ranker_total_order_and_deterministic :
    (∀ a b : UpdateResult, a.numChanges = 0 → 0 < b.numChanges → 0 < rankCmp a b) ∧
    (∀ a b : UpdateResult, 0 < b.numChanges → b.numChanges < a.numChanges → rankCmp a b < 0) ∧
    (∀ a b : UpdateResult, a.numChanges = b.numChanges →
      rankCmp a b = goStringCompare a.pfx b.pfx) ∧
    (∀ a b : UpdateResult, rankCmp b a = -rankCmp a b) ∧
    (∀ a b : UpdateResult, rankCmp a b = 0 ↔ a = b) ∧
    (∀ a b c : UpdateResult, rankCmp a b ≤ 0 → rankCmp b c ≤ 0 → rankCmp a c ≤ 0) ∧
    (∀ l₁ l₂ : List UpdateResult, l₁.Perm l₂ →
      sortFuncGo rankCmp l₁ = sortFuncGo rankCmp l₂) := by
  refine ⟨?_, ?_, ?_, rankCmp_neg, fun _ _ => rankCmp_eq_zero_iff,
    fun _ _ _ => rankCmp_le_trans, fun _ _ => sortFuncGo_rankCmp_perm_eq⟩
  · intro a b h0 hb
    unfold rankCmp
    rw [if_neg (by omega), if_pos h0]
    norm_num
  · intro a b hb hab
    unfold rankCmp
    rw [if_neg (by omega), if_neg (by omega), if_neg (by omega)]
    omega
  · intro a b h
    unfold rankCmp
    rw [if_pos h]

/-- Witness for C3 at the spec's example set {a:5, z:5, b:0}: b:0 sorts
after a:5, z:5 sorts before b:0, counts tie between a and z breaks by
name, and the two arrival orders sort identically. -/
theorem ranker_total_order_and_deterministic_witness :
    0 < rankCmp ⟨"b", 0⟩ ⟨"a", 5⟩ ∧
    rankCmp ⟨"a", 7⟩ ⟨"z", 5⟩ < 0 ∧
    rankCmp ⟨"a", 5⟩ ⟨"z", 5⟩ = goStringCompare "a" "z" ∧
    sortFuncGo rankCmp [⟨"b", 0⟩, ⟨"z", 5⟩, ⟨"a", 5⟩] =
      sortFuncGo rankCmp [⟨"a", 5⟩, ⟨"z", 5⟩, ⟨"b", 0⟩] := by
  have h := ranker_total_order_and_deterministic
  exact ⟨h.1 ⟨"b", 0⟩ ⟨"a", 5⟩ rfl (by decide),
    h.2.1 ⟨"a", 7⟩ ⟨"z", 5⟩ (by decide) (by decide),
    h.2.2.1 ⟨"a", 5⟩ ⟨"z", 5⟩ rfl,
    h.2.2.2.2.2.2 _ _ (by decide)⟩

/-! ### The Update Checker (C7) -/

theorem count_nl_join (commits : List String) (h : ∀ c ∈ commits, '\n' ∉ c.data) :
    ((commits.map (fun c => c.data ++ ['\n'])).flatten).count '\n' = commits.length := by
  induction commits with
  | nil => rfl
  | cons c cs ih =>
    simp only [List.map_cons, List.flatten_cons, List.count_append]
    rw [ih (fun x hx => h x (by simp [hx]))]
    have hc : c.data.count '\n' = 0 := List.count_eq_zero.mpr (h c (by simp))
    simp [hc]
    omega

theorem data_append (s t : String) : (s ++ t).data = s.data ++ t.data := by
  cases s
  cases t
  rfl

theorem dashdash_ne_range (pfx ver branch : String) :
    ("--" : String) ≠ getGitTagFromVersion pfx ver ++ ".." ++ ("origin/" ++ branch) := by
  intro he
  have hd := congrArg String.data he
  unfold getGitTagFromVersion at hd
  by_cases hp : pfx = ""
  · rw [if_pos hp] at hd
    rw [data_append, data_append] at hd
    have h1 : ("v" ++ ver).data = 'v' :: ver.data := by
      cases ver
      rfl
    rw [h1] at hd
    simp at hd
  · rw [if_neg hp] at hd
    have hmem : '/' ∈ ((pfx ++ "/v" ++ ver ++ "..") ++ ("origin/" ++ branch)).data := by
      simp only [data_append]
      simp only [List.mem_append]
      exact Or.inl (Or.inl (Or.inl (Or.inr (by decide))))
    rw [← hd] at hmem
    exact absurd hmem (by decide)

/-- C7: for every module in the working set, the Update Checker's
changeCount equals the number of commits in the one-line-per-commit log
output (one newline-terminated line per commit reachable from the
reference branch but not from the version's tag); the count is never
negative; and the path restriction "-- <module>" appears in the git
arguments exactly when path-based checking is enabled and the module is
not the root. -/
theorem update_checker_counts_commits (isPathBased : Bool) (branch pfx ver : String)
    (out : String) (commits : List String)
    (hout : out.data = (commits.map (fun c => c.data ++ ['\n'])).flatten)
    (hnl : ∀ c ∈ commits, '\n' ∉ c.data) :
    checkForUpdates isPathBased branch pfx ver (fun _ => Except.ok out) =
      Except.ok commits.length ∧
    (∀ git n, checkForUpdates isPathBased branch pfx ver git = Except.ok n → 0 ≤ (n : Int)) ∧
    ("--" ∈ checkForUpdatesArgs isPathBased branch pfx (getGitTagFromVersion pfx ver) ↔
      (isPathBased = true ∧ pfx ≠ "")) := by
  refine ⟨?_, fun _ n _ => Int.natCast_nonneg n, ?_⟩
  · show (if out.length > 0 then Except.ok (out.data.count '\n') else Except.ok 0) =
      Except.ok commits.length
    have hlen : out.length = out.data.length := rfl
    cases commits with
    | nil =>
      have hdata : out.data = [] := by simpa using hout
      rw [if_neg (by rw [hlen, hdata]; simp)]
      rfl
    | cons c cs =>
      have hpos : out.length > 0 := by
        rw [hlen, hout]
        simp
      rw [if_pos hpos, hout, count_nl_join (c :: cs) hnl]
  · unfold checkForUpdatesArgs
    split_ifs with h
    · constructor
      · intro _
        exact h
      · intro _
        simp
    · constructor
      · intro hmem
        exfalso
        rcases List.mem_cons.mp hmem with h1 | hmem
        · exact absurd h1 (by decide)
        rcases List.mem_cons.mp hmem with h2 | hmem
        · exact absurd h2 (by decide)
        rcases List.mem_cons.mp hmem with h3 | hmem
        · exact absurd h3 (dashdash_ne_range pfx ver branch)
        · simp at hmem
      · intro hc
        exact absurd hc h

/-- Witness for C7: two commits touching the api module, path-scoping
active; the checker reports two changes and the path restriction is
present. -/
theorem update_checker_counts_commits_witness :
    checkForUpdates true "main" "api" "1.1.0"
      (fun _ => Except.ok "abc123 fix parser\ndef456 add flag\n") = Except.ok 2 ∧
    ("--" ∈ checkForUpdatesArgs true "main" "api" (getGitTagFromVersion "api" "1.1.0") ↔
      (true = true ∧ ("api" : String) ≠ "")) := by
  have h := update_checker_counts_commits true "main" "api" "1.1.0"
    "abc123 fix parser\ndef456 add flag\n" ["abc123 fix parser", "def456 add flag"]
    (by decide) (by decide)
  exact ⟨h.1, h.2.2⟩

theorem findSome?_eq_none_forall {α β : Type _} (f : α → Option β) :
    ∀ l : List α, l.findSome? f = none → ∀ x ∈ l, f x = none := by
  intro l
  induction l with
  | nil =>
    intro _ x hx
    simp at hx
  | cons a as ih =>
    intro h x hx
    rw [List.findSome?_cons] at h
    rcases List.mem_cons.mp hx with h1 | h1
    · subst h1
      cases hfx : f x with
      | none => rfl
      | some v =>
        rw [hfx] at h
        simp at h
    · cases hfa : f a with
      | none =>
        rw [hfa] at h
        exact ih h x h1
      | some v =>
        rw [hfa] at h
        simp at h

/-! ### The concurrent verify flow (C9) -/

/-- C9: the errgroup join of the verify flow is all-or-nothing — whenever
some per-module task fails, the whole verification returns an error (the
aggregate failure is surfaced and not masked by the successful tasks) and
every already-collected result is discarded; a successful report implies
that every task succeeded, and the report is exactly the ranked list of
all collected results. -/
theorem verify_all_or_nothing (outcomes : List (Except String UpdateResult)) :
    ((∃ o ∈ outcomes, o.isOk = false) → ∃ e, verifyReport outcomes = Except.error e) ∧
    (∀ rs, verifyReport outcomes = Except.ok rs →
      (∀ o ∈ outcomes, o.isOk = true) ∧
      rs = sortFuncGo rankCmp (outcomes.filterMap Except.toOption)) := by
  cases hf : outcomes.findSome?
      (fun o => match o with | Except.error e => some e | Except.ok _ => none) with
  | some e =>
    constructor
    · intro _
      exact ⟨e, by simp [verifyReport, runVerifyTasks, hf, Except.map]⟩
    · intro rs h
      simp [verifyReport, runVerifyTasks, hf, Except.map] at h
  | none =>
    have hall : ∀ o ∈ outcomes,
        (match o with | Except.error e => some e | Except.ok _ => none) = (none : Option String) :=
      findSome?_eq_none_forall _ outcomes hf
    constructor
    · intro ⟨o, ho, hko⟩
      exfalso
      cases o with
      | error e =>
        have := hall (Except.error e) ho
        simp at this
      | ok r => simp [Except.isOk, Except.toBool] at hko
    · intro rs h
      have hrs : rs = sortFuncGo rankCmp (outcomes.filterMap Except.toOption) := by
        simp [verifyReport, runVerifyTasks, hf, Except.map] at h
        exact h.symm
      refine ⟨?_, hrs⟩
      intro o ho
      cases o with
      | error e =>
        have := hall (Except.error e) ho
        simp at this
      | ok r => rfl

/-- Witness for C9: one failing task among three makes the whole report an
error. -/
theorem verify_all_or_nothing_witness :
    ∃ e, verifyReport [Except.ok ⟨"api", 2⟩, Except.error "failed to check git log",
      Except.ok ⟨"", 0⟩] = Except.error e := by
  refine (verify_all_or_nothing _).1 ?_
  exact ⟨Except.error "failed to check git log", by simp, rfl⟩

/-! ### The Tag Prefix Extractor (C4) -/

theorem eq_mk_of_data (p : String) (s : List Char) (h : s = p.data) : p = ⟨s⟩ := by
  cases p with
  | mk pd =>
    rw [show (⟨pd⟩ : String).data = pd from rfl] at h
    rw [h]

theorem isSlashVDigit_iff (l : List Char) :
    isSlashVDigit l = true ↔ ∃ c rest, l = '/' :: 'v' :: c :: rest ∧ c.isDigit = true := by
  cases l with
  | nil => simp [isSlashVDigit]
  | cons c1 l1 =>
    cases l1 with
    | nil => simp [isSlashVDigit]
    | cons c2 l2 =>
      cases l2 with
      | nil => simp [isSlashVDigit]
      | cons c3 rest =>
        unfold isSlashVDigit
        constructor
        · intro h
          simp only [Bool.and_eq_true, decide_eq_true_eq] at h
          exact ⟨c3, rest, by rw [h.1.1, h.1.2], h.2⟩
        · intro ⟨c, r, he, hd⟩
          simp only [List.cons.injEq] at he
          obtain ⟨e1, e2, e3, e4⟩ := he
          subst e1
          subst e2
          subst e3
          simp [hd]

theorem extractSeg_cons (c : Char) (cs : List Char) :
    extractSeg (c :: cs) =
      if c ≠ '\n' ∧ (extractSeg cs).isSome then (extractSeg cs).map (fun s => c :: s)
      else if isSlashVDigit (c :: cs) then some [] else none := rfl

theorem extractSeg_sound : ∀ l s : List Char, extractSeg l = some s →
    ∃ c rest, l = s ++ '/' :: 'v' :: c :: rest ∧ c.isDigit = true ∧ '\n' ∉ s := by
  intro l
  induction l with
  | nil =>
    intro s h
    simp [extractSeg] at h
  | cons c0 cs ih =>
    intro s h
    rw [extractSeg_cons] at h
    by_cases h1 : c0 ≠ '\n' ∧ (extractSeg cs).isSome
    · rw [if_pos h1] at h
      obtain ⟨s', hs'⟩ := Option.isSome_iff_exists.mp h1.2
      rw [hs'] at h
      simp only [Option.map_some'] at h
      have hse := Option.some.inj h
      subst hse
      obtain ⟨c, rest, hl, hdig, hnl⟩ := ih s' hs'
      refine ⟨c, rest, ?_, hdig, ?_⟩
      · rw [hl]
        rfl
      · intro hm
        rcases List.mem_cons.mp hm with hh | hh
        · exact h1.1 hh.symm
        · exact hnl hh
    · rw [if_neg h1] at h
      by_cases h2 : isSlashVDigit (c0 :: cs) = true
      · rw [if_pos h2] at h
        have hse := Option.some.inj h
        subst hse
        obtain ⟨c, rest, he, hd⟩ := (isSlashVDigit_iff _).mp h2
        exact ⟨c, rest, by rw [he]; rfl, hd, by simp⟩
      · rw [if_neg h2] at h
        exact absurd h (by simp)

theorem extractSeg_complete : ∀ (seg : List Char) (c : Char) (rest : List Char),
    c.isDigit = true → '\n' ∉ seg →
    ∃ s, extractSeg (seg ++ '/' :: 'v' :: c :: rest) = some s ∧ seg.length ≤ s.length := by
  intro seg
  induction seg with
  | nil =>
    intro c rest hd _
    rw [List.nil_append, extractSeg_cons]
    by_cases h1 : '/' ≠ '\n' ∧ (extractSeg ('v' :: c :: rest)).isSome
    · rw [if_pos h1]
      obtain ⟨s', hs'⟩ := Option.isSome_iff_exists.mp h1.2
      rw [hs']
      exact ⟨'/' :: s', rfl, by simp⟩
    · rw [if_neg h1]
      rw [if_pos ((isSlashVDigit_iff _).mpr ⟨c, rest, rfl, hd⟩)]
      exact ⟨[], rfl, by simp⟩
  | cons d seg' ih =>
    intro c rest hd hnl
    have hd' : d ≠ '\n' := fun e => hnl (by rw [e]; exact List.mem_cons_self _ _)
    obtain ⟨s', hs', hlen⟩ := ih c rest hd (fun hm => hnl (List.mem_cons_of_mem d hm))
    rw [List.cons_append, extractSeg_cons]
    rw [if_pos ⟨hd', by rw [hs']; rfl⟩]
    rw [hs']
    exact ⟨d :: s', rfl, by simpa using hlen⟩

theorem mem_collectStep (acc : List String) (tag p : String) :
    p ∈ collectStep acc tag ↔
      p ∈ acc ∨ (trimGo tag ≠ "" ∧ extractPrefixTag (trimGo tag).data = some p.data) := by
  unfold collectStep
  by_cases h0 : trimGo tag = ""
  · rw [if_pos h0]
    simp [h0]
  · rw [if_neg h0]
    cases he : extractPrefixTag (trimGo tag).data with
    | none =>
      simp [h0, he]
    | some s =>
      show p ∈ (if (⟨s⟩ : String) ∈ acc then acc else acc ++ [(⟨s⟩ : String)]) ↔
        p ∈ acc ∨ (trimGo tag ≠ "" ∧ (some s : Option (List Char)) = some p.data)
      by_cases hin : (⟨s⟩ : String) ∈ acc
      · rw [if_pos hin]
        constructor
        · intro hp
          exact Or.inl hp
        · intro hp
          rcases hp with hp | ⟨_, hsome⟩
          · exact hp
          · rw [eq_mk_of_data p s (Option.some.inj hsome)]
            exact hin
      · rw [if_neg hin]
        constructor
        · intro hp
          rcases List.mem_append.mp hp with hp | hp
          · exact Or.inl hp
          · have hps : p = ⟨s⟩ := by simpa using hp
            right
            refine ⟨h0, ?_⟩
            rw [hps]
        · intro hp
          rcases hp with hp | ⟨_, hsome⟩
          · exact List.mem_append.mpr (Or.inl hp)
          · refine List.mem_append.mpr (Or.inr ?_)
            rw [eq_mk_of_data p s (Option.some.inj hsome)]
            simp

theorem mem_collect_foldl (tags : List String) :
    ∀ acc p, p ∈ tags.foldl collectStep acc ↔
      p ∈ acc ∨ ∃ tag ∈ tags, trimGo tag ≠ "" ∧
        extractPrefixTag (trimGo tag).data = some p.data := by
  induction tags with
  | nil =>
    intro acc p
    simp
  | cons t ts ih =>
    intro acc p
    rw [List.foldl_cons, ih (collectStep acc t) p, mem_collectStep]
    constructor
    · intro h
      rcases h with (h | ⟨hne, hsome⟩) | ⟨tag, htag, h⟩
      · exact Or.inl h
      · exact Or.inr ⟨t, by simp, hne, hsome⟩
      · exact Or.inr ⟨tag, by simp [htag], h⟩
    · intro h
      rcases h with h | ⟨tag, htag, h⟩
      · exact Or.inl (Or.inl h)
      · rcases List.mem_cons.mp htag with he | hm
        · subst he
          exact Or.inl (Or.inr h)
        · exact Or.inr ⟨tag, hm, h⟩

theorem nodup_collectStep (acc : List String) (tag : String) (h : acc.Nodup) :
    (collectStep acc tag).Nodup := by
  unfold collectStep
  by_cases h0 : trimGo tag = ""
  · rw [if_pos h0]
    exact h
  · rw [if_neg h0]
    cases he : extractPrefixTag (trimGo tag).data with
    | none => exact h
    | some s =>
      show (if (⟨s⟩ : String) ∈ acc then acc else acc ++ [(⟨s⟩ : String)]).Nodup
      by_cases hin : (⟨s⟩ : String) ∈ acc
      · rw [if_pos hin]
        exact h
      · rw [if_neg hin]
        refine List.nodup_append.mpr ⟨h, by simp, ?_⟩
        intro a ha hb
        have hab : a = ⟨s⟩ := by simpa using hb
        subst hab
        exact hin ha

theorem nodup_collect_foldl (tags : List String) :
    ∀ acc : List String, acc.Nodup → (tags.foldl collectStep acc).Nodup := by
  induction tags with
  | nil =>
    intro acc h
    exact h
  | cons t ts ih =>
    intro acc h
    exact ih _ (nodup_collectStep acc t h)

/-- C4: over every list of tag-name strings, the extracted set of module
names is duplicate-free; every (whitespace-clean) tag of the shape
<seg>/v<digit>... contributes a segment of the set — the greedy, longest
such segment; every tag that starts v<digit> and admits no /v<digit>
decomposition contributes the empty-string root module; and every member
of the set is justified by some matching tag (so unmatched tags and blank
lines contribute nothing, and no input causes an error). -/
theorem extractor_membership_spec (tags : List String) :
    (collectTagPrefixes tags).Nodup ∧
    (∀ tag ∈ tags, trimGo tag = tag →
      ∀ seg rest, ∀ c : Char, tag.data = seg ++ '/' :: 'v' :: c :: rest → c.isDigit = true →
        '\n' ∉ seg →
        ∃ seg2 c2 rest2, (⟨seg2⟩ : String) ∈ collectTagPrefixes tags ∧
          tag.data = seg2 ++ '/' :: 'v' :: c2 :: rest2 ∧ c2.isDigit = true ∧
          seg.length ≤ seg2.length) ∧
    (∀ tag ∈ tags, trimGo tag = tag → isBareVDigit tag.data = true →
      (¬∃ seg rest, ∃ c : Char, tag.data = seg ++ '/' :: 'v' :: c :: rest ∧
        c.isDigit = true ∧ '\n' ∉ seg) →
      ("" : String) ∈ collectTagPrefixes tags) ∧
    (∀ p ∈ collectTagPrefixes tags, ∃ tag ∈ tags, trimGo tag ≠ "" ∧
      extractPrefixTag (trimGo tag).data = some p.data) := by
  refine ⟨nodup_collect_foldl tags [] (by simp), ?_, ?_, ?_⟩
  · intro tag htag htrim seg rest c hdec hdig hnl
    obtain ⟨s, hs, hlen⟩ := extractSeg_complete seg c rest hdig hnl
    rw [← hdec] at hs
    obtain ⟨c2, rest2, hdec2, hdig2, _⟩ := extractSeg_sound tag.data s hs
    refine ⟨s, c2, rest2, ?_, hdec2, hdig2, hlen⟩
    rw [show collectTagPrefixes tags = tags.foldl collectStep [] from rfl,
      mem_collect_foldl tags [] ⟨s⟩]
    right
    refine ⟨tag, htag, ?_, ?_⟩
    · rw [htrim]
      intro he
      rw [he] at hdec
      rw [show (("" : String)).data = [] from rfl] at hdec
      cases seg <;> simp at hdec
    · rw [htrim]
      show extractPrefixTag tag.data = some s
      unfold extractPrefixTag
      rw [hs]
  · intro tag htag htrim hbare hnone
    rw [show collectTagPrefixes tags = tags.foldl collectStep [] from rfl,
      mem_collect_foldl tags [] ""]
    right
    refine ⟨tag, htag, ?_, ?_⟩
    · rw [htrim]
      intro he
      rw [he] at hbare
      simp [isBareVDigit] at hbare
    · rw [htrim]
      show extractPrefixTag tag.data = some ("" : String).data
      have hse : extractSeg tag.data = none := by
        cases hx : extractSeg tag.data with
        | none => rfl
        | some s =>
          obtain ⟨c, rest, hdec, hdig, hnl⟩ := extractSeg_sound tag.data s hx
          exact absurd ⟨s, rest, c, hdec, hdig, hnl⟩ hnone
      unfold extractPrefixTag
      rw [hse, if_pos hbare]
  · intro p hp
    exact ((mem_collect_foldl tags [] p).mp hp).resolve_left (by simp)

/-- Witness for C4 on the tag list [api/v1.0.0, v0.9.0, junk, ""]: the
slash-prefixed tag contributes api (as the greedy segment), the bare tag
contributes the root module, and the unmatched and blank entries
contribute nothing. -/
theorem extractor_membership_spec_witness :
    (∃ seg2 c2 rest2,
      (⟨seg2⟩ : String) ∈ collectTagPrefixes ["api/v1.0.0", "v0.9.0", "junk", ""] ∧
      ("api/v1.0.0" : String).data = seg2 ++ '/' :: 'v' :: c2 :: rest2 ∧
      c2.isDigit = true ∧ (['a', 'p', 'i'] : List Char).length ≤ seg2.length) ∧
    ("" : String) ∈ collectTagPrefixes ["api/v1.0.0", "v0.9.0", "junk", ""] ∧
    (collectTagPrefixes ["api/v1.0.0", "v0.9.0", "junk", ""]).Nodup := by
  have h := extractor_membership_spec ["api/v1.0.0", "v0.9.0", "junk", ""]
  refine ⟨?_, ?_, h.1⟩
  · exact h.2.1 "api/v1.0.0" (by decide) (by decide) ['a', 'p', 'i'] ['.', '0', '.', '0'] '1'
      (by decide) (by decide) (by decide)
  · refine h.2.2.1 "v0.9.0" (by decide) (by decide) (by decide) ?_
    intro ⟨seg, rest, c, hdec, hdig, hnl⟩
    obtain ⟨s, hs, _⟩ := extractSeg_complete seg c rest hdig hnl
    rw [← hdec] at hs
    rw [show extractSeg ("v0.9.0" : String).data = none from by decide] at hs
    exact absurd hs (by simp)
